import Mathlib

set_option linter.unusedVariables false

/-!
Verification of the `probs` sampling library.

The development shallowly embeds the library's core (`src/domain.rs`,
`src/sampler.rs`): `f64` density values become the inductive type `F`
(finite values are exact rationals; the two infinities and NaN are
explicit constructors, so the IEEE comparison and propagation rules that
the code relies on are modelled faithfully; finite addition is exact, so
overflow to infinity is not modelled — non-finite masses enter through
the density function, as in the library's own tests), random draws become
explicit oracle arguments, and each sampler's `next` becomes a pure
function on its state.  Panics (`assert!`, `unwrap`) are modelled with
`Except String`.
-/

deriving instance DecidableEq for Except

/-- Model of `f64` as used by the samplers: exact rationals plus the two
infinities and NaN. -/
inductive F : Type where
  | fin : ℚ → F
  | pinf : F
  | ninf : F
  | nan : F
deriving DecidableEq, Repr

namespace F

/-- Model of `f64::is_finite`. -/
def isFinite : F → Bool
  | fin _ => true
  | _ => false

/-- IEEE `<` : any comparison with NaN is false. -/
def flt : F → F → Bool
  | fin a, fin b => decide (a < b)
  | fin _, pinf => true
  | ninf, fin _ => true
  | ninf, pinf => true
  | _, _ => false

/-- IEEE `<=` : any comparison with NaN is false. -/
def fle : F → F → Bool
  | nan, _ => false
  | _, nan => false
  | ninf, _ => true
  | fin _, ninf => false
  | fin a, fin b => decide (a ≤ b)
  | fin _, pinf => true
  | pinf, pinf => true
  | pinf, _ => false

/-- IEEE addition (without overflow: finite + finite stays finite). -/
def fadd : F → F → F
  | nan, _ => nan
  | _, nan => nan
  | pinf, ninf => nan
  | ninf, pinf => nan
  | pinf, _ => pinf
  | _, pinf => pinf
  | ninf, _ => ninf
  | _, ninf => ninf
  | fin a, fin b => fin (a + b)

/-- IEEE division (signed zeroes collapsed to `0`). -/
def fdiv : F → F → F
  | nan, _ => nan
  | _, nan => nan
  | pinf, pinf => nan
  | pinf, ninf => nan
  | ninf, pinf => nan
  | ninf, ninf => nan
  | pinf, fin b => if b < 0 then ninf else pinf
  | ninf, fin b => if b < 0 then pinf else ninf
  | fin _, pinf => fin 0
  | fin _, ninf => fin 0
  | fin a, fin b =>
    if b = 0 then (if a = 0 then nan else if 0 < a then pinf else ninf)
    else fin (a / b)

/-- Model of `f64::partial_cmp`: `none` exactly when one side is NaN. -/
def partialCmp : F → F → Option Ordering
  | nan, _ => none
  | _, nan => none
  | fin a, fin b => some (compare a b)
  | fin _, pinf => some .lt
  | fin _, ninf => some .gt
  | pinf, fin _ => some .gt
  | pinf, pinf => some .eq
  | pinf, ninf => some .gt
  | ninf, fin _ => some .lt
  | ninf, ninf => some .eq
  | ninf, pinf => some .lt

theorem partialCmp_isSome {a b : F} (ha : a ≠ nan) (hb : b ≠ nan) :
    (partialCmp a b).isSome = true := by
  cases a <;> cases b <;> simp_all [partialCmp]

theorem isFinite_ne_nan {a : F} (h : a.isFinite = true) : a ≠ nan := by
  cases a <;> simp_all [isFinite]

theorem fle_ne_nan_left {a b : F} (h : fle a b = true) : a ≠ nan := by
  cases a <;> simp_all [fle]

theorem flt_asymm {a b : F} (h : flt a b = true) : flt b a = false := by
  cases a <;> cases b <;> simp_all [flt] <;> linarith

theorem partialCmp_eq_eq {a b : F} (h : partialCmp a b = some .eq) :
    fle b a = true := by
  cases a <;> cases b <;> simp_all [partialCmp, fle]
  exact le_of_eq (compare_eq_iff_eq.mp h).symm

theorem partialCmp_eq_lt {a b : F} (h : partialCmp a b = some .lt) :
    flt a b = true := by
  cases a <;> cases b <;> simp_all [partialCmp, flt]
  exact compare_lt_iff_lt.mp h

theorem partialCmp_eq_gt {a b : F} (h : partialCmp a b = some .gt) :
    flt b a = true := by
  cases a <;> cases b <;> simp_all [partialCmp, flt]
  exact compare_gt_iff_gt.mp h

theorem fadd_isFinite {a b : F} (h : (fadd a b).isFinite = true) :
    a.isFinite = true ∧ b.isFinite = true := by
  cases a <;> cases b <;> simp_all [fadd, isFinite]

theorem flt_of_fle_of_flt {a b c : F} (hab : fle a b = true)
    (hbc : flt b c = true) : flt a c = true := by
  cases a <;> cases b <;> cases c <;> simp_all [fle, flt] <;> linarith

theorem fle_of_fle_of_fle {a b c : F} (hab : fle a b = true)
    (hbc : fle b c = true) : fle a c = true := by
  cases a <;> cases b <;> cases c <;> simp_all [fle] <;> linarith

theorem fle_of_flt {a b : F} (h : flt a b = true) : fle a b = true := by
  cases a <;> cases b <;> simp_all [flt, fle] <;> linarith

end F

/- ----------------------------------------------------------------- -/
/- Generic pull-based iterators and the Rust `Skip` adapter
   (`Iterator::skip`, used by `univar::slice::Method::sample` and
   `multivar::gibbs::Method::sample` to implement burn-in).           -/
/- ----------------------------------------------------------------- -/

/-- A stateful pull-based iterator: `next` either yields an item and a
successor state or is exhausted. -/
def IterStep (σ α : Type) := σ → Option (α × σ)

/-- Element `nextn step n s`: the element at 0-based index `n` of the stream
produced from state `s` (Rust's `Iterator::nth`), together with the
state after it. -/
def nextn (step : IterStep σ α) : ℕ → σ → Option (α × σ)
  | 0, s => step s
  | n + 1, s =>
    match step s with
    | none => none
    | some (_, s') => nextn step n s'

/-- The sequence an iterator produces: element at index `n`. -/
def seqAt (step : IterStep σ α) (s : σ) (n : ℕ) : Option α :=
  (nextn step n s).map (·.1)

/-- Rust's `Skip` adapter state: the remaining skip count plus the
underlying iterator's state. -/
def skipStep (step : IterStep σ α) : IterStep (ℕ × σ) α := fun ks =>
  match ks with
  | (0, s) => (step s).map (fun as => (as.1, (0, as.2)))
  | (k + 1, s) => (nextn step (k + 1) s).map (fun as => (as.1, (0, as.2)))

theorem nextn_succ (step : IterStep σ α) (n : ℕ) (s : σ) :
    nextn step (n + 1) s =
      (match step s with
       | none => none
       | some (_, s') => nextn step n s') := rfl

theorem nextn_zero_skip (step : IterStep σ α) :
    ∀ (m : ℕ) (t : σ),
      nextn (skipStep step) m (0, t) =
        (nextn step m t).map (fun as => (as.1, (0, as.2))) := by
  intro m
  induction m with
  | zero =>
    intro t
    show (step t).map _ = ((step t).map _)
    cases step t <;> rfl
  | succ m ih =>
    intro t
    rw [nextn_succ, nextn_succ]
    cases h : step t with
    | none => simp [skipStep, h]
    | some as => simp [skipStep, h, ih]

theorem nextn_add (step : IterStep σ α) :
    ∀ (a b : ℕ) (s : σ),
      nextn step (a + b + 1) s =
        (match nextn step a s with
         | none => none
         | some (_, t) => nextn step b t) := by
  intro a
  induction a with
  | zero =>
    intro b s
    rw [Nat.zero_add, nextn_succ]
    cases h : step s with
    | none => simp [nextn, h]
    | some as => simp [nextn, h]
  | succ a ih =>
    intro b s
    have harith : a + 1 + b + 1 = (a + b + 1) + 1 := by omega
    rw [harith, nextn_succ]
    cases h : step s with
    | none => rw [nextn_succ, h]
    | some as =>
      obtain ⟨a1, a2⟩ := as
      rw [nextn_succ, h]
      exact ih b a2

theorem skipStep_eq (step : IterStep σ α) (K : ℕ) (s : σ) :
    skipStep step (K, s) =
      (nextn step K s).map (fun as => (as.1, (0, as.2))) := by
  cases K <;> rfl

/- ----------------------------------------------------------------- -/
/- Inverse-transform sampler (`univar::icdf`).                        -/
/- ----------------------------------------------------------------- -/

/-- Body of `univar::icdf::Method::sample`: the `scan` that produces the
cumulative table `cdf`, with `assert!(c.is_finite(), "PDF overflow")`
modelled as an `Except.error`.  `c` is the running sum (initially `0.0`),
and each traversed value is paired with the sum including it. -/
def icdfCdfGo {D : Type} (pdf : D → F) (c : F) : List D → Except String (List (D × F))
  | [] => .ok []
  | x :: xs =>
    let c' := F.fadd c (pdf x)
    if c'.isFinite then (icdfCdfGo pdf c' xs).map (fun l => (x, c') :: l)
    else .error "PDF overflow"

/-- Model of `univar::icdf::Method::sample`, applied to the domain's traversal
list: builds the cumulative table once, eagerly (`collect`). -/
def icdfSample {D : Type} (dom : List D) (pdf : D → F) :
    Except String (List (D × F)) :=
  icdfCdfGo pdf (F.fin 0) dom

/-- The total density mass: the sum of `pdf` over the traversed domain. -/
def totalMass {D : Type} (dom : List D) (pdf : D → F) : F :=
  dom.foldl (fun c x => F.fadd c (pdf x)) (F.fin 0)

/-- Rust `slice::binary_search_by` with the comparator
`|(_value, p)| p.partial_cmp(&value).unwrap()`: the standard bisection,
returning `.inl mid` on an exact comparator hit and `.inr left` with the
insertion point otherwise; the `unwrap` of a failed `partial_cmp`
(a NaN operand) is a panic, modelled as an error. -/
def binSearchGo (ps : List F) (v : F) (left right : ℕ) :
    Except String (ℕ ⊕ ℕ) :=
  if h : left < right then
    let mid := left + (right - left) / 2
    match F.partialCmp (ps.getD mid F.nan) v with
    | none => .error "panic: partial_cmp unwrap on NaN"
    | some .lt => binSearchGo ps v (mid + 1) right
    | some .gt => binSearchGo ps v left mid
    | some .eq => .ok (.inl mid)
  else .ok (.inr left)
termination_by right - left
decreasing_by
  · simp_wf
    omega
  · simp_wf
    omega

def binSearch (ps : List F) (v : F) : Except String (ℕ ⊕ ℕ) :=
  binSearchGo ps v 0 ps.length

/-- Model of `univar::icdf::Sampler::next` as a function of the drawn uniform
value `v` (the code's `self.sum.gen_range(0.0..sum)`): reads the last
cumulative entry (`unwrap` on an empty table is a panic), returns `None`
unless the total is `> 0.0`, otherwise binary-searches the table and
clones the domain value at the found position
(`pos.unwrap_or_else(|pos| pos)`). -/
def icdfNext {D : Type} (cdf : List (D × F)) (v : F) :
    Except String (Option D) :=
  match cdf.getLast? with
  | none => .error "panic: unwrap on empty cdf"
  | some last =>
    if F.flt (F.fin 0) last.2 then
      match binSearch (cdf.map (·.2)) v with
      | .error e => .error e
      | .ok r => .ok ((cdf[Sum.elim id id r]?).map (·.1))
    else .ok none

/- ----------------------------------------------------------------- -/
/- Domain models (`src/domain.rs`).                                   -/
/- ----------------------------------------------------------------- -/

/-- Model of `integer::X<N>::traverse`: `(0..N).map(X)` (values carried as `ℕ`). -/
def intXtraverse (N : ℕ) : List ℕ := List.range N

/-- Model of `float::X<N>::traverse`: `(0..N).map(|x| X(x as f64 / N as f64))`
(bucket representatives carried as exact rationals). -/
def floatXtraverse (N : ℕ) : List ℚ :=
  (List.range N).map (fun k => (k : ℚ) / N)

/-- The blanket `impl_finite` for primitive integers:
`fn traverse() -> (MIN)..(MAX)`, a half-open Rust range, which yields
`MIN, MIN+1, ..., MAX-1`. -/
def traverseRange (lo hi : ℤ) : List ℤ :=
  (List.range (hi - lo).toNat).map (fun k => lo + k)

/-- Model of `u8::traverse()` under the blanket `impl_finite`: `u8::MIN = 0`,
`u8::MAX = 255`. -/
def traverseU8 : List ℤ := traverseRange 0 255

/-- Model of `integer::X<N>::uniform`: an infinite stream of `gen_range(0..N)`
draws; the rng is an oracle stream of naturals. -/
def intXuniform (N : ℕ) (rng : ℕ → ℕ) (k : ℕ) : Option ℕ :=
  some (rng k % N)

/-- Model of `Domain for nd::Array<D, Dim<[usize; R]>>::uniform`: the code returns
`std::iter::empty()` (commented `// Never used!`). -/
def vecUniform (D : Type) (R : ℕ) (k : ℕ) : Option (List D) := none

/- ----------------------------------------------------------------- -/
/- Claim C7: burn-in is a pure prefix skip.                           -/
/- ----------------------------------------------------------------- -/

/-- C7: for every sampler wrapped with a burn-in skip count `K` (the
`Iterator::skip` adapter applied by `univar::slice::Method::sample` and
`multivar::gibbs::Method::sample`), the wrapped sequence equals the
underlying sampler's sequence with its first `K` elements removed,
element for element. -/
theorem burn_in_prefix_skip (step : IterStep σ α) (K : ℕ) (s : σ) (n : ℕ) :
    seqAt (skipStep step) (K, s) n = seqAt step s (K + n) := by
  cases n with
  | zero =>
    show (skipStep step (K, s)).map (·.1) = (nextn step K s).map (·.1)
    rw [skipStep_eq]
    cases nextn step K s <;> rfl
  | succ n =>
    show (nextn (skipStep step) (n + 1) (K, s)).map (·.1) = _
    rw [nextn_succ, skipStep_eq]
    have hKn : K + (n + 1) = K + n + 1 := by omega
    cases hK : nextn step K s with
    | none =>
      show (none : Option α) = seqAt step s (K + (n + 1))
      rw [hKn]
      show (none : Option α) = (nextn step (K + n + 1) s).map (·.1)
      rw [nextn_add step K n s, hK]
      rfl
    | some as =>
      obtain ⟨a1, a2⟩ := as
      show (nextn (skipStep step) n (0, a2)).map (·.1) = seqAt step s (K + (n + 1))
      rw [nextn_zero_skip, hKn]
      show _ = (nextn step (K + n + 1) s).map (·.1)
      rw [nextn_add step K n s, hK]
      show _ = (nextn step n a2).map (·.1)
      cases nextn step n a2 <;> rfl

/- ----------------------------------------------------------------- -/
/- Claim C1: the inverse-transform construction-time guard.           -/
/- ----------------------------------------------------------------- -/

theorem icdfCdfGo_error_of_nonfinite {D : Type} (pdf : D → F) :
    ∀ (dom : List D) (c : F), c.isFinite = true →
      (dom.foldl (fun a x => F.fadd a (pdf x)) c).isFinite = false →
      icdfCdfGo pdf c dom = .error "PDF overflow" := by
  intro dom
  induction dom with
  | nil => intro c hc hsum; rw [List.foldl_nil] at hsum; simp_all
  | cons x xs ih =>
    intro c hc hsum
    rw [List.foldl_cons] at hsum
    show (if (F.fadd c (pdf x)).isFinite then _ else _) = _
    cases hfin : (F.fadd c (pdf x)).isFinite with
    | false => simp [hfin]
    | true => simp only [hfin, if_pos, ih _ hfin hsum, Except.map]

/-- C1 counterexample: a density that is identically zero over
`integer::X<3>` has total mass `0` (non-positive), yet
`Method::sample` does **not** fail at construction — it returns the
table, and the first pull then yields `None` (an empty sequence)
instead of aborting. -/
theorem icdf_zero_mass_counterexample :
    icdfSample (intXtraverse 3) (fun _ => F.fin 0) =
      .ok [(0, F.fin 0), (1, F.fin 0), (2, F.fin 0)] ∧
    icdfNext [((0 : ℕ), F.fin 0), (1, F.fin 0), (2, F.fin 0)] (F.fin 0) =
      .ok none := by
  refine ⟨?_, by decide⟩
  norm_num [icdfSample, icdfCdfGo, intXtraverse, F.fadd, F.isFinite,
    List.range_succ, Except.map]

/-- C1 (amended): if the total density mass is non-finite (equivalently,
some cumulative partial sum is non-finite) the inverse-transform
`sample` fails fatally at sequence-construction time — the `assert!`
panics before any pull is made; if instead the total is non-positive
(but every partial sum finite), construction succeeds and every pull
returns no element, so the failure surfaces as an empty sequence, not as
an abort. -/
theorem icdf_mass_guard {D : Type} (dom : List D) (pdf : D → F) :
    ((totalMass dom pdf).isFinite = false →
      icdfSample dom pdf = .error "PDF overflow") ∧
    (∀ cdf l, icdfSample dom pdf = .ok cdf → cdf.getLast? = some l →
      F.flt (F.fin 0) l.2 = false → ∀ v, icdfNext cdf v = .ok none) := by
  constructor
  · intro hsum
    exact icdfCdfGo_error_of_nonfinite pdf dom (F.fin 0) rfl hsum
  · intro cdf l hok hlast hle v
    unfold icdfNext
    rw [hlast]
    simp [hle]

/-- C1 witness: a NaN density over `integer::X<1>` trips the
construction-time assert; a zero density's table yields `None` on pull. -/
theorem icdf_mass_guard_witness :
    icdfSample (intXtraverse 1) (fun _ => F.nan) = .error "PDF overflow" ∧
    icdfNext [((0 : ℕ), F.fin 0)] (F.fin 0) = .ok none := by
  constructor
  · exact (icdf_mass_guard (intXtraverse 1) (fun _ => F.nan)).1 (by decide)
  · exact (icdf_mass_guard (intXtraverse 1) (fun _ => F.fin 0)).2
      [((0 : ℕ), F.fin 0)] ((0 : ℕ), F.fin 0)
      (by norm_num [icdfSample, icdfCdfGo, intXtraverse, F.fadd, F.isFinite,
        List.range_succ, Except.map])
      (by decide) (by decide) (F.fin 0)

/- ----------------------------------------------------------------- -/
/- Invariants of the Rust bisection (`slice::binary_search_by`).      -/
/- ----------------------------------------------------------------- -/

theorem partialCmp_eq_eq_le {a b : F} (h : F.partialCmp a b = some .eq) :
    F.fle a b = true := by
  cases a <;> cases b <;> simp_all [F.partialCmp, F.fle]
  exact le_of_eq (compare_eq_iff_eq.mp h)

theorem binSearchGo_spec (ps : List F) (v : F)
    (hnan : ∀ p ∈ ps, p ≠ F.nan) (hv : v ≠ F.nan) :
    ∀ left right, left ≤ right → right ≤ ps.length →
      (left = 0 ∨ F.flt (ps.getD (left - 1) F.nan) v = true) →
      (right = ps.length ∨ F.flt v (ps.getD right F.nan) = true) →
      ∃ r, binSearchGo ps v left right = .ok r ∧
        (∀ i, r = .inl i → left ≤ i ∧ i < right ∧
          F.partialCmp (ps.getD i F.nan) v = some .eq) ∧
        (∀ l, r = .inr l → left ≤ l ∧ l ≤ right ∧
          (l = 0 ∨ F.flt (ps.getD (l - 1) F.nan) v = true) ∧
          (l = ps.length ∨ F.flt v (ps.getD l F.nan) = true)) := by
  intro left right
  induction left, right using binSearchGo.induct ps v with
  | case1 left right h mid heq =>
    -- comparator returned `none`: impossible, no NaN is present
    intro hlr hrlen hlinv hrinv
    exfalso
    have hmidlt : mid < ps.length := by omega
    have hmem : ps.getD mid F.nan ∈ ps := by
      rw [List.getD_eq_getElem ps F.nan hmidlt]
      exact List.getElem_mem hmidlt
    have := F.partialCmp_isSome (hnan _ hmem) hv
    rw [heq] at this
    simp at this
  | case2 left right h mid heq ih =>
    -- comparator `lt`: recurse right half with `left = mid + 1`
    intro hlr hrlen hlinv hrinv
    have hmidlt : mid < ps.length := by omega
    have hflt : F.flt (ps.getD mid F.nan) v = true := F.partialCmp_eq_lt heq
    obtain ⟨r, hr, hinl, hinr⟩ :=
      ih (by omega) hrlen (Or.inr (by simpa using hflt)) hrinv
    refine ⟨r, ?_, ?_, ?_⟩
    · rw [binSearchGo.eq_def]
      simp only [dif_pos h]
      rw [heq]
      exact hr
    · intro i hi
      obtain ⟨h1, h2, h3⟩ := hinl i hi
      exact ⟨by omega, h2, h3⟩
    · intro l hl
      obtain ⟨h1, h2, h3, h4⟩ := hinr l hl
      exact ⟨by omega, h2, h3, h4⟩
  | case3 left right h mid heq ih =>
    -- comparator `gt`: recurse left half with `right = mid`
    intro hlr hrlen hlinv hrinv
    have hmidlt : mid < ps.length := by omega
    have hflt : F.flt v (ps.getD mid F.nan) = true := F.partialCmp_eq_gt heq
    obtain ⟨r, hr, hinl, hinr⟩ :=
      ih (by omega) (by omega) hlinv (Or.inr hflt)
    refine ⟨r, ?_, ?_, ?_⟩
    · rw [binSearchGo.eq_def]
      simp only [dif_pos h]
      rw [heq]
      exact hr
    · intro i hi
      obtain ⟨h1, h2, h3⟩ := hinl i hi
      exact ⟨h1, by omega, h3⟩
    · intro l hl
      obtain ⟨h1, h2, h3, h4⟩ := hinr l hl
      exact ⟨h1, by omega, h3, h4⟩
  | case4 left right h mid heq =>
    -- comparator `eq`: found
    intro hlr hrlen hlinv hrinv
    refine ⟨.inl mid, ?_, ?_, ?_⟩
    · rw [binSearchGo.eq_def]
      simp only [dif_pos h]
      rw [heq]
    · intro i hi
      cases hi
      exact ⟨by omega, by omega, heq⟩
    · intro l hl
      cases hl
  | case5 left right h =>
    -- `left = right`: insertion point
    intro hlr hrlen hlinv hrinv
    have : left = right := by omega
    subst this
    refine ⟨.inr left, ?_, ?_, ?_⟩
    · rw [binSearchGo.eq_def]
      simp only [dif_neg h]
    · intro i hi
      cases hi
    · intro l hl
      cases hl
      exact ⟨le_refl _, le_refl _, hlinv, hrinv⟩

theorem fle_ne_nan_right {a b : F} (h : F.fle a b = true) : b ≠ F.nan := by
  cases a <;> cases b <;> simp_all [F.fle]

theorem fle_fadd {c p : F} (hc : c.isFinite = true)
    (hcp : (F.fadd c p).isFinite = true) (hp : F.fle (F.fin 0) p = true) :
    F.fle c (F.fadd c p) = true := by
  cases c <;> cases p <;> simp_all [F.isFinite, F.fadd, F.fle]

theorem except_map_ok {eps a b : Type} (f : a → b) (x : a) :
    Except.map f (.ok x : Except eps a) = .ok (f x) := rfl

theorem except_map_error {eps a b : Type} (f : a → b) (e : eps) :
    Except.map f (.error e : Except eps a) = .error e := rfl

/-- Every cumulative entry that survives the `assert!` is finite. -/
theorem icdfCdfGo_finite {D : Type} (pdf : D → F) :
    ∀ (dom : List D) (c : F) (cdf : List (D × F)),
      icdfCdfGo pdf c dom = .ok cdf → ∀ e ∈ cdf, e.2.isFinite = true := by
  intro dom
  induction dom with
  | nil =>
    intro c cdf hok e he
    simp only [icdfCdfGo] at hok
    injection hok with hok
    subst hok
    simp at he
  | cons x xs ih =>
    intro c cdf hok e he
    simp only [icdfCdfGo] at hok
    cases hfin : (F.fadd c (pdf x)).isFinite with
    | false => simp [hfin] at hok
    | true =>
      rw [if_pos hfin] at hok
      cases hrec : icdfCdfGo pdf (F.fadd c (pdf x)) xs with
      | error e' => rw [hrec] at hok; simp [except_map_error] at hok
      | ok rest =>
        rw [hrec, except_map_ok] at hok
        injection hok with hok
        subst hok
        rcases List.mem_cons.mp he with he | he
        · rw [he]; exact hfin
        · exact ih _ _ hrec e he

/-- With a pointwise non-negative density the cumulative sums are
nondecreasing: the table is sorted in traversal order. -/
theorem icdfCdfGo_chain {D : Type} (pdf : D → F)
    (hpos : ∀ x, F.fle (F.fin 0) (pdf x) = true) :
    ∀ (dom : List D) (c : F) (cdf : List (D × F)), c.isFinite = true →
      icdfCdfGo pdf c dom = .ok cdf →
      (∀ e ∈ cdf.head?, F.fle c e.2 = true) ∧
      List.Chain' (fun a b : D × F => F.fle a.2 b.2 = true) cdf := by
  intro dom
  induction dom with
  | nil =>
    intro c cdf hc hok
    simp only [icdfCdfGo] at hok
    injection hok with hok
    subst hok
    exact ⟨by simp, by simp⟩
  | cons x xs ih =>
    intro c cdf hc hok
    simp only [icdfCdfGo] at hok
    cases hfin : (F.fadd c (pdf x)).isFinite with
    | false => simp [hfin] at hok
    | true =>
      rw [if_pos hfin] at hok
      cases hrec : icdfCdfGo pdf (F.fadd c (pdf x)) xs with
      | error e' => rw [hrec] at hok; simp [except_map_error] at hok
      | ok rest =>
        rw [hrec, except_map_ok] at hok
        injection hok with hok
        subst hok
        obtain ⟨hhead, hchain⟩ := ih _ _ hfin hrec
        constructor
        · intro e he
          simp at he
          subst he
          exact fle_fadd hc hfin (hpos x)
        · rw [List.chain'_cons']
          exact ⟨fun b hb => hhead b hb, hchain⟩

theorem map_snd_getD {D : Type} (cdf : List (D × F)) (i : ℕ)
    (h : i < cdf.length) :
    (cdf.map (fun e => e.2)).getD i F.nan = (cdf.get ⟨i, h⟩).2 := by
  rw [List.getD_eq_getElem _ _ (by simpa using h)]
  simp

theorem icdf_bisection_core {D : Type} (cdf : List (D × F)) (l : D × F)
    (v : F) (hfin : ∀ e ∈ cdf, e.2.isFinite = true)
    (hlast : cdf.getLast? = some l)
    (hv0 : F.fle (F.fin 0) v = true)
    (hvl : F.flt v l.2 = true) :
    ∃ r, binSearch (cdf.map (fun e => e.2)) v = .ok r ∧
      Sum.elim id id r < cdf.length ∧
      (∀ i, r = .inl i →
        F.partialCmp ((cdf.map (fun e => e.2)).getD i F.nan) v =
          some .eq) ∧
      (∀ ll, r = .inr ll →
        (ll = 0 ∨
          F.flt ((cdf.map (fun e => e.2)).getD (ll - 1) F.nan) v = true) ∧
        F.flt v ((cdf.map (fun e => e.2)).getD ll F.nan) = true) := by
  have hne : cdf ≠ [] := by
    intro hcon
    rw [hcon] at hlast
    simp at hlast
  have hlen : 0 < cdf.length := List.length_pos.mpr hne
  have hvnan : v ≠ F.nan := fle_ne_nan_right hv0
  have hpsnan : ∀ p ∈ cdf.map (fun e => e.2), p ≠ F.nan := by
    intro p hp
    rw [List.mem_map] at hp
    obtain ⟨a, ha, hp2⟩ := hp
    rw [← hp2]
    exact F.isFinite_ne_nan (hfin _ ha)
  have hpslen : (cdf.map (fun e => e.2)).length = cdf.length := by simp
  have hlast2 : l = cdf.get ⟨cdf.length - 1, by omega⟩ := by
    have h5 : cdf[cdf.length - 1]? =
        some (cdf.get ⟨cdf.length - 1, by omega⟩) := by
      rw [List.getElem?_eq_getElem (show cdf.length - 1 < cdf.length
        by omega)]
      rfl
    rw [List.getLast?_eq_getElem?] at hlast
    rw [h5] at hlast
    exact (Option.some_inj.mp hlast).symm
  obtain ⟨r, hr, hinl, hinr⟩ :=
    binSearchGo_spec (cdf.map (fun e => e.2)) v hpsnan hvnan 0
      (cdf.map (fun e => e.2)).length (by omega) (by omega)
      (Or.inl rfl) (Or.inl rfl)
  have hnotend : ∀ ll, r = .inr ll → ll < cdf.length := by
    intro ll hll
    have ⟨h1, h2, h3, h4⟩ := hinr ll hll
    rcases Nat.lt_or_ge ll cdf.length with hlt | hge
    · exact hlt
    · exfalso
      have hlleq : ll = cdf.length := by omega
      rcases h3 with h3 | h3
      · omega
      · rw [hlleq] at h3
        rw [map_snd_getD cdf (cdf.length - 1) (by omega)] at h3
        rw [hlast2] at hvl
        have := F.flt_asymm hvl
        rw [this] at h3
        exact Bool.false_ne_true h3
  refine ⟨r, hr, ?_, ?_, ?_⟩
  · cases r with
    | inl i =>
      have := hinl i rfl
      simp only [Sum.elim_inl, id_eq]
      omega
    | inr ll =>
      simp only [Sum.elim_inr, id_eq]
      exact hnotend ll rfl
  · intro i hi
    exact (hinl i hi).2.2
  · intro ll hll
    have ⟨h1, h2, h3, h4⟩ := hinr ll hll
    refine ⟨h3, ?_⟩
    rcases h4 with h4 | h4
    · exfalso
      have := hnotend ll hll
      rw [hpslen] at h4
      omega
    · exact h4

/-- Unfolding of `icdfNext` on a non-empty table. -/
theorem icdfNext_cons_eq {D : Type} (cdf : List (D × F)) (l : D × F) (v : F)
    (hlast : cdf.getLast? = some l) :
    icdfNext cdf v =
      if F.flt (F.fin 0) l.2 = true then
        match binSearch (cdf.map (fun e => e.2)) v with
        | .error e => .error e
        | .ok r => .ok ((cdf[Sum.elim id id r]?).map (fun e => e.1))
      else .ok none := by
  unfold icdfNext
  rw [hlast]

/- ----------------------------------------------------------------- -/
/- Claim C10: the pull reads the last entry unconditionally.          -/
/- ----------------------------------------------------------------- -/

/-- C10: every pull of the inverse-transform sampler reads the last entry
of the cumulative table, so on a domain whose `traverse()` is empty the
construction succeeds with an empty table and the first pull panics
(`unwrap` on an empty vector); conversely, for a non-empty table built by
`sample` whose total is positive (hence finite, by the construction
assert), a pull fed any uniform draw `v` with `0 <= v < total` returns
some domain value and does not panic. -/
theorem icdf_pull_reads_last (D : Type) (dom : List D) (pdf : D → F) (v : F) :
    (icdfSample ([] : List D) pdf = .ok [] ∧
      icdfNext ([] : List (D × F)) v = .error "panic: unwrap on empty cdf") ∧
    (∀ cdf l, icdfSample dom pdf = .ok cdf → cdf.getLast? = some l →
      F.flt (F.fin 0) l.2 = true → F.fle (F.fin 0) v = true →
      F.flt v l.2 = true → ∃ d, icdfNext cdf v = .ok (some d)) := by
  constructor
  · exact ⟨rfl, rfl⟩
  · intro cdf l hok hlast htot hv0 hvl
    have hfin : ∀ e ∈ cdf, e.2.isFinite = true :=
      icdfCdfGo_finite pdf dom _ _ hok
    obtain ⟨r, hr, hidx, hinl, hinr⟩ :=
      icdf_bisection_core cdf l v hfin hlast hv0 hvl
    refine ⟨(cdf.get ⟨Sum.elim id id r, hidx⟩).1, ?_⟩
    rw [icdfNext_cons_eq cdf l v hlast, if_pos htot, hr]
    show Except.ok ((cdf[Sum.elim id id r]?).map (fun e => e.1)) = _
    rw [List.getElem?_eq_getElem hidx]
    rfl

/-- C10 witness: the empty table panics on first pull; a one-entry table
with total `1` and draw `0` yields a value. -/
theorem icdf_pull_reads_last_witness :
    icdfNext ([] : List (ℕ × F)) (F.fin 0) =
      .error "panic: unwrap on empty cdf" ∧
    (icdfNext [((0 : ℕ), F.fin 1)] (F.fin 0)).isOk = true := by
  constructor
  · exact (icdf_pull_reads_last ℕ (intXtraverse 1) (fun _ => F.fin 1)
      (F.fin 0)).1.2
  · obtain ⟨d, hd⟩ := (icdf_pull_reads_last ℕ (intXtraverse 1)
      (fun _ => F.fin 1) (F.fin 0)).2 [((0 : ℕ), F.fin 1)] ((0 : ℕ), F.fin 1)
      (by norm_num [icdfSample, icdfCdfGo, intXtraverse, F.fadd, F.isFinite,
        List.range_succ, Except.map])
      (by decide) (by decide) (by decide) (by decide)
    rw [hd]
    rfl

/- ----------------------------------------------------------------- -/
/- Claim C4: what the pull's binary search actually selects.          -/
/- ----------------------------------------------------------------- -/

/-- The spec's words for the pull's lookup: "the first cumulative-sum
entry greater than or equal to that value ... ties broken toward the
first qualifying index in traversal order" — i.e. the index of the first
entry `p` with `v <= p`.  Spec-side definition, for comparison with the
code's bisection. -/
def specFirstGE {D : Type} (cdf : List (D × F)) (v : F) : Option ℕ :=
  cdf.findIdx? (fun e => F.fle v e.2)

/-- C4 counterexample: over `integer::X<3>` with weights `1, 0, 1` the
cumulative table is `[1, 1, 2]`.  On the draw `v = 1` the first
qualifying entry in traversal order is index `0` (domain value `0`), but
the bisection probes `mid = 1` first, hits an exact comparator match and
returns index `1` — the zero-weight entry — so the pull does **not**
break the tie toward the first qualifying index. -/
theorem icdf_tie_break_counterexample :
    icdfNext [((0 : ℕ), F.fin 1), (1, F.fin 1), (2, F.fin 2)] (F.fin 1) =
      .ok (some 1) ∧
    specFirstGE [((0 : ℕ), F.fin 1), (1, F.fin 1), (2, F.fin 2)] (F.fin 1) =
      some 0 ∧
    icdfNext [((0 : ℕ), F.fin 1), (1, F.fin 1), (2, F.fin 2)] (F.fin 1) ≠
      .ok (some 0) := by
  have h1 : icdfNext [((0 : ℕ), F.fin 1), (1, F.fin 1), (2, F.fin 2)]
      (F.fin 1) = .ok (some 1) := by
    rw [icdfNext_cons_eq _ ((2 : ℕ), F.fin 2) _ (by decide),
      if_pos (by decide)]
    have hbs : binSearch
        ([((0 : ℕ), F.fin 1), (1, F.fin 1), (2, F.fin 2)].map
          (fun e => e.2)) (F.fin 1) = .ok (.inl 1) := by
      unfold binSearch
      rw [binSearchGo.eq_def]
      norm_num [F.partialCmp, List.getD]
      rw [show compare (1 : ℚ) 1 = Ordering.eq from compare_eq_iff_eq.mpr rfl]
    rw [hbs]
    rfl
  refine ⟨h1, by decide, ?_⟩
  rw [h1]
  decide

/-- C4 (amended): each pull draws one uniform value `v` in
`[0, total_weight)` and returns the domain value at the index found by
the standard bisection: an index `i` whose cumulative entry is `>= v`
and whose predecessor entry (if any) is `<= v`.  When no entry equals
`v` this is exactly the first entry `>= v`; when several consecutive
entries equal `v`, the bisection's midpoint rule may select any of them,
not necessarily the first qualifying index in traversal order. -/
theorem icdf_pull_bisection {D : Type} (dom : List D) (pdf : D → F)
    (cdf : List (D × F)) (l : D × F) (v : F)
    (hpos : ∀ x, F.fle (F.fin 0) (pdf x) = true)
    (hok : icdfSample dom pdf = .ok cdf)
    (hlast : cdf.getLast? = some l)
    (htot : F.flt (F.fin 0) l.2 = true)
    (hv0 : F.fle (F.fin 0) v = true)
    (hvl : F.flt v l.2 = true) :
    ∃ i, ∃ hi : i < cdf.length,
      icdfNext cdf v = .ok (some (cdf.get ⟨i, hi⟩).1) ∧
      F.fle v (cdf.get ⟨i, hi⟩).2 = true ∧
      (i = 0 ∨ ∀ hi1 : i - 1 < cdf.length,
        F.fle (cdf.get ⟨i - 1, hi1⟩).2 v = true) := by
  have hfin : ∀ e ∈ cdf, e.2.isFinite = true :=
    icdfCdfGo_finite pdf dom _ _ hok
  have hchain := (icdfCdfGo_chain pdf hpos dom (F.fin 0) cdf rfl hok).2
  obtain ⟨r, hr, hidx, hinl, hinr⟩ :=
    icdf_bisection_core cdf l v hfin hlast hv0 hvl
  have hnext : icdfNext cdf v =
      .ok (some (cdf.get ⟨Sum.elim id id r, hidx⟩).1) := by
    rw [icdfNext_cons_eq cdf l v hlast, if_pos htot, hr]
    show Except.ok ((cdf[Sum.elim id id r]?).map (fun e => e.1)) = _
    rw [List.getElem?_eq_getElem hidx]
    rfl
  cases r with
  | inl i =>
    simp only [Sum.elim_inl, id_eq] at hidx hnext
    have hcmp := hinl i rfl
    rw [map_snd_getD cdf i hidx] at hcmp
    have hvle : F.fle v (cdf.get ⟨i, hidx⟩).2 = true :=
      F.partialCmp_eq_eq hcmp
    have hlev : F.fle (cdf.get ⟨i, hidx⟩).2 v = true :=
      partialCmp_eq_eq_le hcmp
    refine ⟨i, hidx, hnext, hvle, ?_⟩
    rcases Nat.eq_zero_or_pos i with h0 | h0
    · exact Or.inl h0
    · refine Or.inr ?_
      intro hi1
      have hadj : F.fle (cdf.get ⟨i - 1, hi1⟩).2 (cdf.get ⟨i, hidx⟩).2 =
          true := by
        rw [List.chain'_iff_get] at hchain
        have h2 := hchain (i - 1) (by omega)
        rw [List.get_eq_getElem, List.get_eq_getElem] at h2
        have heq : i - 1 + 1 = i := by omega
        simp only [heq] at h2
        exact h2
      exact F.fle_of_fle_of_fle hadj hlev
  | inr ll =>
    simp only [Sum.elim_inr, id_eq] at hidx hnext
    obtain ⟨h3, h4⟩ := hinr ll rfl
    rw [map_snd_getD cdf ll hidx] at h4
    refine ⟨ll, hidx, hnext, F.fle_of_flt h4, ?_⟩
    rcases h3 with h3 | h3
    · exact Or.inl h3
    · refine Or.inr ?_
      intro hll1
      rw [map_snd_getD cdf (ll - 1) hll1] at h3
      exact F.fle_of_flt h3

/-- C4 witness: two equal weights over `integer::X<2>` give cumulative
table `[1, 2]`; the draw `0` selects index `0` and the pull succeeds. -/
theorem icdf_pull_bisection_witness :
    (icdfNext [((0 : ℕ), F.fin 1), (1, F.fin 2)] (F.fin 0)).isOk = true := by
  obtain ⟨i, hi, hnext, hvle, hpred⟩ :=
    icdf_pull_bisection (intXtraverse 2) (fun _ => F.fin 1)
      [((0 : ℕ), F.fin 1), (1, F.fin 2)] ((1 : ℕ), F.fin 2) (F.fin 0)
      (fun x => by show F.fle (F.fin 0) (F.fin 1) = true; decide)
      (by norm_num [icdfSample, icdfCdfGo, intXtraverse, F.fadd, F.isFinite,
        List.range_succ, Except.map])
      (by decide) (by decide) (by decide) (by decide)
  rw [hnext]
  rfl

/- ----------------------------------------------------------------- -/
/- Claim C5: what `traverse()` actually enumerates.                   -/
/- ----------------------------------------------------------------- -/

set_option maxRecDepth 4000 in
/-- C5 (code bug): the blanket `impl_finite` writes the half-open Rust
range `(MIN)..(MAX)`, so `u8::traverse()` yields only the 255 values
`0, 1, ..., 254` and never yields `u8::MAX = 255` — it does not
enumerate every value of the type exactly once as the spec requires. -/
theorem traverse_u8_misses_max :
    traverseU8.contains 255 = false ∧ traverseU8.length = 255 ∧
    traverseU8.head? = some 0 ∧ traverseU8.getLast? = some 254 := by
  decide

/- ----------------------------------------------------------------- -/
/- Claim C9: the vector domain's `uniform()`.                         -/
/- ----------------------------------------------------------------- -/

/-- C9 counterexample: with the base domain `integer::X<4>` (whose
uniform stream is never empty), the fixed-size vector domain's
`uniform()` yields nothing on its very first pull — it is
`std::iter::empty()`, not a stream of full arrays of base draws. -/
theorem vec_uniform_counterexample :
    vecUniform ℕ 2 0 = none ∧
    intXuniform 4 (fun _ => 1) 0 = some 1 := by
  constructor <;> rfl

/-- C9 (amended): the fixed-size vector domain's `uniform()` is the
empty iterator (the code returns `std::iter::empty()`, commented
`// Never used!`): it yields nothing on any pull, for every base element
type and every rank, even though the base domain's own `uniform()` is
never exhausted; vector states are instead produced by the Gibbs
sampler from base-domain uniform draws. -/
theorem vec_uniform_is_empty (D : Type) (R k : ℕ) :
    vecUniform D R k = none ∧
    (∀ (rng : ℕ → ℕ) (N : ℕ), 0 < N →
      (intXuniform N rng k).isSome = true) := by
  refine ⟨rfl, ?_⟩
  intro rng N hN
  rfl

/-- C9 witness. -/
theorem vec_uniform_is_empty_witness :
    vecUniform Bool 3 7 = none ∧
    (intXuniform 10 (fun j => j + 2) 7).isSome = true :=
  ⟨(vec_uniform_is_empty Bool 3 7).1,
   (vec_uniform_is_empty Bool 3 7).2 (fun j => j + 2) 10 (by decide)⟩

/- ----------------------------------------------------------------- -/
/- Slice sampler (`univar::slice`).                                   -/
/- ----------------------------------------------------------------- -/

/-- The random draws available to one recursion level of
`univar::slice::Sampler::next`: `fresh` is the `D::uniform().next()`
used when no current state exists, `aux` is the level drawn by
`self.aux.gen_range(0.0..=y)` (its membership in `[0, y]` is a
hypothesis where a theorem needs it), and `cands` is the fresh
independent uniform stream scanned by
`D::uniform().skip_while(|x| pdf(x) < y).next()` (a finite prefix: long
enough whenever the scan terminates). -/
structure SliceLevel (D : Type) where
  fresh : Option D
  aux : F
  cands : List D

/-- Model of `univar::slice::Sampler::next`: takes the current state (or a fresh
uniform draw); if its density is positive and finite, scans a fresh
uniform stream, discarding candidates while `pdf(candidate) < y`, and
stores and yields the first remaining candidate; otherwise recurses
(`self.next()`) with the state emptied, so the next level redraws a
wholly fresh state.  `fuel` bounds the recursion depth, which the code
leaves unbounded; level `k` of the oracle supplies the draws of the
`k`-th recursion level. -/
def sliceNextGo {D : Type} (pdf : D → F) (lv : ℕ → SliceLevel D) :
    ℕ → ℕ → Option D → Option D
  | 0, _, _ => none
  | fuel + 1, k, st =>
    match st.or (lv k).fresh with
    | none => none
    | some x =>
      if (F.flt (F.fin 0) (pdf x) && (pdf x).isFinite) = true then
        (lv k).cands.find? (fun c => ! F.flt (pdf c) (lv k).aux)
      else sliceNextGo pdf lv fuel (k + 1) none

def sliceNext {D : Type} (pdf : D → F) (lv : ℕ → SliceLevel D)
    (fuel : ℕ) (st : Option D) : Option D :=
  sliceNextGo pdf lv fuel 0 st

theorem find?_first_spec {α : Type} (p : α → Bool) (l : List α) (a : α) :
    l.find? p = some a ↔
      ∃ i : ℕ, l[i]? = some a ∧ p a = true ∧
        ∀ j : ℕ, j < i → ∀ b, l[j]? = some b → p b = false := by
  induction l with
  | nil => simp
  | cons x xs ih =>
    by_cases hx : p x
    · rw [List.find?_cons_of_pos _ hx]
      constructor
      · intro ha
        have hxa : x = a := Option.some_inj.mp ha
        subst hxa
        exact ⟨0, by simp, hx, fun j hj b hb => absurd hj (by omega)⟩
      · rintro ⟨i, hi, hpa, hfirst⟩
        cases i with
        | zero =>
          simp at hi
          rw [hi]
        | succ i =>
          have := hfirst 0 (by omega) x (by simp)
          rw [hx] at this
          exact absurd this (by simp)
    · rw [List.find?_cons_of_neg _ (by simpa using hx)]
      rw [ih]
      constructor
      · rintro ⟨i, hi, hpa, hfirst⟩
        refine ⟨i + 1, by simpa using hi, hpa, ?_⟩
        intro j hj b hb
        cases j with
        | zero =>
          simp at hb
          rw [← hb]
          simpa using hx
        | succ j =>
          exact hfirst j (by omega) b (by simpa using hb)
      · rintro ⟨i, hi, hpa, hfirst⟩
        cases i with
        | zero =>
          simp at hi
          rw [← hi] at hpa
          exact absurd hpa (by simpa using hx)
        | succ i =>
          refine ⟨i, by simpa using hi, hpa, ?_⟩
          intro j hj b hb
          exact hfirst (j + 1) (by omega) b (by simpa using hb)

/- ----------------------------------------------------------------- -/
/- Claim C2: the slice sampler's pull.                                -/
/- ----------------------------------------------------------------- -/

/-- Density for the C2 counterexample: positive and finite at the
current state `0`, NaN at the first scanned candidate `1`. -/
def slicePdfCx : ℕ → F
  | 0 => F.fin 2
  | 1 => F.nan
  | _ => F.fin 2

/-- Oracle for the C2 counterexample: auxiliary level `1`, candidate
stream `[1, 2]`. -/
def sliceLvCx : ℕ → SliceLevel ℕ := fun _ => ⟨none, F.fin 1, [1, 2]⟩

/-- C2 counterexample: with `pdf(state) = 2` and auxiliary level
`y = 1`, the scan `skip_while(|x| pdf(x) < y)` stops at the NaN-density
candidate `1` (NaN comparisons are false) and the pull adopts and
yields it, even though `pdf(1) >= y` does **not** hold; the first
candidate with `pdf(candidate) >= y` is `2`, which the claim says
should have become the new state. -/
theorem slice_nan_candidate_counterexample :
    sliceNext slicePdfCx sliceLvCx 1 (some 0) = some 1 ∧
    F.fle (sliceLvCx 0).aux (slicePdfCx 1) = false ∧
    List.find? (fun c => F.fle (sliceLvCx 0).aux (slicePdfCx c))
      (sliceLvCx 0).cands = some 2 := by
  refine ⟨by decide, by decide, by decide⟩

/-- C2 (amended): for every slice-sampler pull: if no current state
exists, the fresh uniform draw of the level is taken as the state; if
`pdf(state)` is positive and finite, an auxiliary level `y` is drawn
uniformly from `[0, pdf(state)]` and a fresh uniform-draw stream is
scanned discarding candidates while `pdf(candidate) < y`; the first
candidate for which `pdf(candidate) < y` fails — `pdf(candidate) >= y`,
or `pdf(candidate)` NaN, since NaN comparisons are false — becomes the
new state and a clone of it is yielded; if `pdf(state)` is zero or
non-finite, the pull recovers by recursing with the state emptied, so a
wholly fresh state and auxiliary level are redrawn at the next level,
and the degenerate state is not yielded as an error or null element. -/
theorem slice_pull_behaviour {D : Type} (pdf : D → F)
    (lv : ℕ → SliceLevel D) (fuel k : ℕ) (st : Option D) :
    (sliceNextGo pdf lv (fuel + 1) k none =
      sliceNextGo pdf lv (fuel + 1) k ((lv k).fresh)) ∧
    (∀ x, st.or (lv k).fresh = some x →
      (F.flt (F.fin 0) (pdf x) && (pdf x).isFinite) = true →
      ∀ c, (sliceNextGo pdf lv (fuel + 1) k st = some c ↔
        ∃ i : ℕ, (lv k).cands[i]? = some c ∧
          F.flt (pdf c) (lv k).aux = false ∧
          ∀ j : ℕ, j < i → ∀ b, (lv k).cands[j]? = some b →
            F.flt (pdf b) (lv k).aux = true)) ∧
    (∀ x, st.or (lv k).fresh = some x →
      (F.flt (F.fin 0) (pdf x) && (pdf x).isFinite) = false →
      sliceNextGo pdf lv (fuel + 1) k st =
        sliceNextGo pdf lv fuel (k + 1) none) := by
  refine ⟨?_, ?_, ?_⟩
  · cases h : (lv k).fresh with
    | none => simp [sliceNextGo, h]
    | some x => simp [sliceNextGo, h]
  · intro x hx hpos c
    have hstep : sliceNextGo pdf lv (fuel + 1) k st =
        (lv k).cands.find? (fun c => ! F.flt (pdf c) (lv k).aux) := by
      show (match st.or (lv k).fresh with
            | none => none
            | some x =>
              if (F.flt (F.fin 0) (pdf x) && (pdf x).isFinite) = true
              then (lv k).cands.find? (fun c => ! F.flt (pdf c) (lv k).aux)
              else sliceNextGo pdf lv fuel (k + 1) none) = _
      rw [hx]
      show (if (F.flt (F.fin 0) (pdf x) && (pdf x).isFinite) = true
          then (lv k).cands.find? (fun c => ! F.flt (pdf c) (lv k).aux)
          else sliceNextGo pdf lv fuel (k + 1) none) = _
      rw [if_pos hpos]
    rw [hstep, find?_first_spec]
    simp only [Bool.not_eq_true', Bool.not_eq_false']
  · intro x hx hneg
    show (match st.or (lv k).fresh with
          | none => none
          | some x =>
            if (F.flt (F.fin 0) (pdf x) && (pdf x).isFinite) = true
            then (lv k).cands.find? (fun c => ! F.flt (pdf c) (lv k).aux)
            else sliceNextGo pdf lv fuel (k + 1) none) = _
    rw [hx]
    show (if (F.flt (F.fin 0) (pdf x) && (pdf x).isFinite) = true
        then (lv k).cands.find? (fun c => ! F.flt (pdf c) (lv k).aux)
        else sliceNextGo pdf lv fuel (k + 1) none) = _
    rw [if_neg (by rw [hneg]; simp)]

/-- Density for the C2 witness: zero at `0`, positive elsewhere. -/
def slicePdfW : ℕ → F := fun n => if n = 0 then F.fin 0 else F.fin 2

/-- Oracle for the C2 witness: auxiliary level `1`, candidate stream
`[7]`. -/
def sliceLvW : ℕ → SliceLevel ℕ := fun _ => ⟨none, F.fin 1, [7]⟩

/-- C2 witness: a positive-density state follows the scan and yields
the first surviving candidate; a zero-density state recurses with the
state emptied. -/
theorem slice_pull_behaviour_witness :
    sliceNextGo slicePdfW sliceLvW 1 0 (some 5) = some 7 ∧
    sliceNextGo slicePdfW sliceLvW 1 0 (some 0) =
      sliceNextGo slicePdfW sliceLvW 0 1 none := by
  constructor
  · exact ((slice_pull_behaviour slicePdfW sliceLvW 0 0 (some 5)).2.1 5 rfl
      (by decide) 7).mpr
      ⟨0, by simp [sliceLvW], by decide, fun j hj b hb => absurd hj (by omega)⟩
  · exact (slice_pull_behaviour slicePdfW sliceLvW 0 0 (some 0)).2.2 0 rfl
      (by decide)

/- ----------------------------------------------------------------- -/
/- Gibbs sampler (`multivar::gibbs`).                                 -/
/- ----------------------------------------------------------------- -/

/-- Model of the `multivar::gibbs::Method::sample` initial state:
`nd::Array::from_shape_fn(dim, |_| init.next().unwrap())` — the state
array's elements, in iteration order, are successive draws of one
base-domain uniform stream `init` (the stream of a `Uniform` domain is
never exhausted, so the `unwrap` never panics and the stream is
modelled as total). -/
def gibbsInit {D : Type} (R : ℕ) (init : ℕ → D) : List D :=
  (List.range R).map init

/-- The coordinate loop of `multivar::gibbs::global::Sampler::next`,
over the state array flattened in iteration order.  `sub i cond` is the
single value pulled from a fresh instance of the sub-sampler method run
on the conditional density `cond`
(`self.sub.sample(|x| { *value = x.clone(); (self.pdf)(&state) }).next()`:
the in-place write of the trial value into coordinate `i` of the shared
array is the substitution `st.set i x`, with earlier coordinates already
holding their new values); `unif i` is the fallback draw
`D::uniform().next()`.  The second component counts sub-sampler
invocations: one per visited coordinate; when a coordinate yields
nothing the `collect::<Option<Vec<_>>>` short-circuits and the later
coordinates are not visited. -/
def sweepGo {D : Type} (pdf : List D → F) (sub : ℕ → (D → F) → Option D)
    (unif : ℕ → Option D) (st : List D) (i : ℕ) : Option (List D) × ℕ :=
  if h : i < st.length then
    match (sub i (fun x => pdf (st.set i x))).or (unif i) with
    | none => (none, 1)
    | some v =>
      let r := sweepGo pdf sub unif (st.set i v) (i + 1)
      (r.1, r.2 + 1)
  else (some st, 0)
termination_by st.length - i
decreasing_by
  simp_wf
  omega

/-- Model of `multivar::gibbs::global::Sampler::next`: one full sweep; the pull
yields a clone of the updated full state (`self.state.clone()`), or
`None` if the state was lost. -/
def gibbsNext {D : Type} (pdf : List D → F)
    (sub : ℕ → (D → F) → Option D) (unif : ℕ → Option D)
    (st : Option (List D)) : Option (List D) :=
  match st with
  | none => none
  | some s => (sweepGo pdf sub unif s 0).1

theorem sweepGo_spec {D : Type} (pdf : List D → F)
    (sub : ℕ → (D → F) → Option D) (unif : ℕ → Option D) :
    ∀ (st : List D) (i : ℕ) (st' : List D),
      (sweepGo pdf sub unif st i).1 = some st' →
      st'.length = st.length ∧
      (∀ j : ℕ, j < i → st'[j]? = st[j]?) ∧
      (∀ j : ℕ, i ≤ j → j < st.length →
        st'[j]? = (sub j (fun x =>
          pdf ((st'.take j ++ st.drop j).set j x))).or (unif j)) := by
  intro st i
  induction st, i using sweepGo.induct pdf sub unif with
  | case1 st i h hm =>
    -- coordinate yields nothing: the sweep yields nothing
    intro st' hst'
    rw [sweepGo.eq_def, dif_pos h, hm] at hst'
    simp at hst'
  | case2 st i h v hm ih =>
    intro st' hst'
    rw [sweepGo.eq_def, dif_pos h, hm] at hst'
    obtain ⟨hlen, hpre, hrest⟩ := ih st' hst'
    rw [List.length_set] at hlen
    have hpre' : ∀ j : ℕ, j < i → st'[j]? = st[j]? := by
      intro j hj
      rw [hpre j (by omega)]
      exact List.getElem?_set_ne (by omega)
    have htake : st'.take i = st.take i := by
      apply List.ext_getElem?
      intro n
      rw [List.getElem?_take, List.getElem?_take]
      by_cases hn : n < i
      · rw [if_pos hn, if_pos hn]
        exact hpre' n hn
      · rw [if_neg hn, if_neg hn]
    refine ⟨hlen, hpre', ?_⟩
    intro j hij hjlen
    rcases Nat.lt_or_ge i j with hlt | hge
    · -- a later coordinate: the recursive characterization transfers
      have := hrest j (by omega) (by rw [List.length_set]; omega)
      rw [this]
      have hdrop : (st.set i v).drop j = st.drop j := by
        apply List.ext_getElem?
        intro n
        rw [List.getElem?_drop, List.getElem?_drop]
        exact List.getElem?_set_ne (by omega)
      rw [hdrop]
    · -- `j = i`: this coordinate received the drawn value
      have hji : j = i := by omega
      subst hji
      have hsti : st'[j]? = some v := by
        rw [hpre j (by omega)]
        exact List.getElem?_set_self (by omega)
      rw [hsti]
      have hglue : st'.take j ++ st.drop j = st := by
        rw [htake]
        exact List.take_append_drop j st
      rw [hglue, hm]
  | case3 st i h =>
    intro st' hst'
    rw [sweepGo.eq_def, dif_neg h] at hst'
    have : st = st' := Option.some_inj.mp hst'
    subst this
    exact ⟨rfl, fun j hj => rfl, fun j hij hjlen => absurd hjlen (by omega)⟩

/-- Claim C3: for every Gibbs-sampler pull on state `st` that yields
`st'`, each coordinate `j` was visited in ascending order and received
`(sub j cond_j).or (unif j)` — one value taken from a fresh sub-sampler
run on the density that substitutes the trial value into coordinate `j`
of the current state (earlier coordinates already updated, later ones
still original) and evaluates the outer joint density on the full
state, with one independent base-domain uniform draw as fallback — and
the pull yields the full updated state. -/
theorem gibbs_pull_spec {D : Type} (pdf : List D → F)
    (sub : ℕ → (D → F) → Option D) (unif : ℕ → Option D)
    (st st' : List D) :
    gibbsNext pdf sub unif (some st) = some st' →
    st'.length = st.length ∧
    ∀ j : ℕ, j < st.length →
      st'[j]? = (sub j (fun x =>
        pdf ((st'.take j ++ st.drop j).set j x))).or (unif j) := by
  intro h
  obtain ⟨hlen, _, hrest⟩ := sweepGo_spec pdf sub unif st 0 st' h
  exact ⟨hlen, fun j hj => hrest j (by omega) hj⟩

theorem sweepGo_count {D : Type} (pdf : List D → F)
    (sub : ℕ → (D → F) → Option D) (unif : ℕ → Option D)
    (hu : ∀ j : ℕ, (unif j).isSome = true) :
    ∀ (st : List D) (i : ℕ), (sweepGo pdf sub unif st i).2 = st.length - i := by
  intro st i
  induction st, i using sweepGo.induct pdf sub unif with
  | case1 st i h hm =>
    exfalso
    have h2 := hu i
    cases hs : sub i (fun x => pdf (st.set i x)) with
    | none =>
      rw [hs] at hm
      cases hun : unif i with
      | none => rw [hun] at h2; simp at h2
      | some w => rw [hun] at hm; simp [Option.or] at hm
    | some w => rw [hs] at hm; simp [Option.or] at hm
  | case2 st i h v hm ih =>
    rw [sweepGo.eq_def, dif_pos h, hm]
    show (sweepGo pdf sub unif (st.set i v) (i + 1)).2 + 1 = st.length - i
    rw [ih, List.length_set]
    omega
  | case3 st i h =>
    rw [sweepGo.eq_def, dif_neg h]
    show 0 = st.length - i
    omega

/-- Claim C6: the Gibbs state is an array of `R` base-domain values
whose element at index `i` is the `i`-th draw of the base domain's
uniform stream, and (since a `Uniform` domain's stream is never empty)
every pull performs exactly one sub-sampling operation per coordinate:
`R` of them for a state of `R` coordinates. -/
theorem gibbs_init_and_count {D : Type} (pdf : List D → F)
    (sub : ℕ → (D → F) → Option D) (unif : ℕ → Option D)
    (R : ℕ) (init : ℕ → D) (st : List D) :
    (gibbsInit R init).length = R ∧
    (∀ i : ℕ, i < R → (gibbsInit R init)[i]? = some (init i)) ∧
    ((∀ j : ℕ, (unif j).isSome = true) →
      (sweepGo pdf sub unif st 0).2 = st.length) := by
  refine ⟨by simp [gibbsInit], ?_, ?_⟩
  · intro i hi
    simp [gibbsInit, List.getElem?_map, List.getElem?_range hi]
  · intro hu
    rw [sweepGo_count pdf sub unif hu st 0]
    omega

/-- C3 witness: a two-coordinate sweep in which the sub-sampler yields
`i + 10` for coordinate `i`. -/
theorem gibbs_pull_spec_witness :
    ([10, 11] : List ℕ).length = ([0, 0] : List ℕ).length ∧
    ([10, 11] : List ℕ)[0]? = some 10 := by
  have hrun : gibbsNext (fun _ => F.fin 1) (fun i _ => some (i + 10))
      (fun _ => some 99) (some [0, 0]) = some [10, 11] := by
    simp [gibbsNext, sweepGo]
  obtain ⟨hlen, hco⟩ := gibbs_pull_spec _ _ _ _ _ hrun
  refine ⟨hlen, ?_⟩
  have := hco 0 (by simp)
  simpa using this

/-- C6 witness: two coordinates, sub-sampler always empty, uniform
fallback available: the state is two init draws and the sweep counts
two sub-sampling operations. -/
theorem gibbs_init_and_count_witness :
    (gibbsInit 2 (fun i : ℕ => i + 5)).length = 2 ∧
    (gibbsInit 2 (fun i : ℕ => i + 5))[0]? = some 5 ∧
    (sweepGo (fun _ => F.fin 1) (fun _ _ => none) (fun _ => some 0)
      ([3, 4] : List ℕ) 0).2 = 2 := by
  obtain ⟨hl, hin, hc⟩ := gibbs_init_and_count (fun _ => F.fin 1)
    (fun _ _ => none) (fun _ => some 0) 2 (fun i : ℕ => i + 5) [3, 4]
  refine ⟨hl, ?_, ?_⟩
  · have := hin 0 (by omega)
    simpa using this
  · have := hc (fun j => rfl)
    simpa using this

/- ----------------------------------------------------------------- -/
/- Metropolis–Hastings (spec 4.3; no implementation under src/).      -/
/- ----------------------------------------------------------------- -/

/-- Modelled from the spec: the univariate Metropolis–Hastings
sampler's state (section 4.3) — "current value and its cached density".
The sampler itself is absent from `src/` (the spec describes it but the
repository sources contain only the inverse-transform, slice and Gibbs
samplers), so this component is modelled from the spec's words. -/
structure MHState (D : Type) where
  cur : D
  dens : F

/-- Modelled from the spec: one pull of the univariate
Metropolis–Hastings sampler — "propose a candidate via the proposal
kernel, evaluate its density, draw a uniform value in `[0,1)`, accept
(replace state and cached density) iff
`uniform < candidate_density / current_density`; yield the (possibly
unchanged) current state every pull".  `u` is the drawn uniform value;
the result pairs the new state with the yielded value. -/
def mhNext {D : Type} (pdf : D → F) (prop : D → D) (u : F)
    (s : MHState D) : MHState D × D :=
  if F.flt u (F.fdiv (pdf (prop s.cur)) s.dens) = true then
    (⟨prop s.cur, pdf (prop s.cur)⟩, prop s.cur)
  else (s, s.cur)

/-- Claim C8 (spec-modelled): every pull yields the current state after
the acceptance decision; the candidate is accepted — replacing the
state and its cached density — exactly when the drawn uniform value is
less than `candidate_density / current_density`, and the state is kept
unchanged otherwise. -/
theorem mh_pull_spec {D : Type} (pdf : D → F) (prop : D → D) (u : F)
    (s : MHState D) :
    ((mhNext pdf prop u s).2 = (mhNext pdf prop u s).1.cur) ∧
    (F.flt u (F.fdiv (pdf (prop s.cur)) s.dens) = true →
      (mhNext pdf prop u s).1 = ⟨prop s.cur, pdf (prop s.cur)⟩) ∧
    (F.flt u (F.fdiv (pdf (prop s.cur)) s.dens) = false →
      (mhNext pdf prop u s).1 = s) := by
  refine ⟨?_, ?_, ?_⟩
  · unfold mhNext
    split <;> rfl
  · intro h
    unfold mhNext
    rw [if_pos h]
  · intro h
    unfold mhNext
    rw [if_neg (by rw [h]; simp)]

/-- C8 witness: a flat density and a `+1` proposal from state `0` with
draw `0 < 1/1`: the candidate is accepted and yielded. -/
theorem mh_pull_spec_witness :
    (mhNext (fun _ : ℕ => F.fin 1) (fun n => n + 1) (F.fin 0)
        ⟨0, F.fin 1⟩).2 =
      (mhNext (fun _ : ℕ => F.fin 1) (fun n => n + 1) (F.fin 0)
        ⟨0, F.fin 1⟩).1.cur ∧
    (mhNext (fun _ : ℕ => F.fin 1) (fun n => n + 1) (F.fin 0)
        ⟨0, F.fin 1⟩).1 = ⟨1, F.fin 1⟩ := by
  refine ⟨(mh_pull_spec _ _ _ _).1, ?_⟩
  have := (mh_pull_spec (fun _ : ℕ => F.fin 1) (fun n => n + 1) (F.fin 0)
    ⟨0, F.fin 1⟩).2.1 (by norm_num [F.fdiv, F.flt])
  simpa using this
